import Mathlib

/-!
Verification of the streaming byte pipeline of `log_monitor`.

The embedding models bytes as `Nat` (the newline byte is `10`), byte strings as
`List Nat`, and the mutable members of the `LogMonitor` class by explicit state
records.  The functions below are transcribed from
`src/keyword_matcher.cpp` and `src/log_monitor.cpp`:

* `strFind`                models `std::string_view::find` (first occurrence);
* `KeywordMatcher.hasMatch` models `KeywordMatcher::matches`;
* `processLine`            models `LogMonitor::processLine` (lines 87-106);
* `scanBuf`/`processBuffer` model `LogMonitor::processBuffer` (lines 132-172),
  where the accumulator `acc` stands for the slice `buffer[start..i]` of the
  C++ scan loop and the `carry` field models the member `partialLine_`;
* `processChunks`          models feeding successive read buffers in order;
* `readIter`               models one iteration of the inner read loop of
  `LogMonitor::start` (lines 229-252), including the C++ iostream semantics
  that `istream::read` sets `eofbit` and `failbit` on a short read and that
  `tellg()` returns `-1` whenever `fail()` is true.

Spec-side definitions (`recs`, `mergeRecs`, `runRecs`, `lineStats`, `emitOne`,
`outLines`) give the newline-delimited records of a byte stream and a
record-at-a-time description of the scanner, used to state and prove the
claims.
-/

/-- The byte value of the line terminator handled by `processBuffer`. -/
def NL : Nat := 10

/-- Models `LogMonitor::MAX_LINE_LENGTH` (5000). -/
def MAX_LINE_LENGTH : Nat := 5000

/-- `p` occurs at the front of `l`. -/
def isPref (p l : List Nat) : Prop := ∃ t, l = p ++ t

/-- `p` occurs at the back of `l`. -/
def isSuf (p l : List Nat) : Prop := ∃ s, l = s ++ p

/-- `p` occurs as a contiguous byte subsequence of `l`. -/
def isSub (p l : List Nat) : Prop := ∃ s t, l = s ++ p ++ t

/-- Models `std::string_view::find(keyword)`: the first index `i` (scanning
from `0` up to `text.length`) at which `pat` occurs, or `none`. -/
def strFind (text pat : List Nat) : Option Nat :=
  (List.range (text.length + 1)).find? (fun i => decide (pat = (text.drop i).take pat.length))

namespace KeywordMatcher

/-- Models `KeywordMatcher::matches` (keyword_matcher.cpp lines 45-53; the
C++ name `matches` is a reserved word in Lean):
iterate the stored keywords and report whether `find` succeeds for any. -/
def hasMatch (keywords : List (List Nat)) (text : List Nat) : Bool :=
  keywords.any (fun k => (strFind text k).isSome)

end KeywordMatcher

/-- Models `LogMonitor::Statistics`. -/
structure Statistics where
  linesProcessed : Nat
  linesMatched : Nat
  bytesRead : Nat
  longLinesDiscarded : Nat

/-- The mutable state of `LogMonitor` relevant to buffer processing:
`carry` models the member `partialLine_`, `output` the bytes written to
`outStream_`, `stats` the member `stats_`. -/
structure LMState where
  carry : List Nat
  output : List Nat
  stats : Statistics

/-- The state at construction: empty carry, nothing written, zero counters. -/
def initLM : LMState := ⟨[], [], ⟨0, 0, 0, 0⟩⟩

/-- Models `LogMonitor::processLine` (log_monitor.cpp lines 87-106).
The sequential counter updates of the source are flattened into one record
update per branch: empty lines are skipped; `linesProcessed` always
increments; a line longer than `MAX_LINE_LENGTH` is truncated to its first
`MAX_LINE_LENGTH` bytes and `longLinesDiscarded` increments; the (possibly
truncated) line is emitted followed by one newline byte when it matches. -/
def processLine (kws : List (List Nat)) (st : LMState) (line : List Nat) : LMState :=
  if line = [] then st
  else if MAX_LINE_LENGTH < line.length then
    (if KeywordMatcher.hasMatch kws (line.take MAX_LINE_LENGTH) then
      { st with
        stats := { st.stats with
          linesProcessed := st.stats.linesProcessed + 1,
          longLinesDiscarded := st.stats.longLinesDiscarded + 1,
          linesMatched := st.stats.linesMatched + 1 },
        output := st.output ++ line.take MAX_LINE_LENGTH ++ [NL] }
    else
      { st with
        stats := { st.stats with
          linesProcessed := st.stats.linesProcessed + 1,
          longLinesDiscarded := st.stats.longLinesDiscarded + 1 } })
  else
    (if KeywordMatcher.hasMatch kws line then
      { st with
        stats := { st.stats with
          linesProcessed := st.stats.linesProcessed + 1,
          linesMatched := st.stats.linesMatched + 1 },
        output := st.output ++ line ++ [NL] }
    else
      { st with
        stats := { st.stats with linesProcessed := st.stats.linesProcessed + 1 } })

/-- The newline branch of `processBuffer` (lines 138-152): the segment before
the terminator is joined with the carry (`partialLine_`), the result is handed
to `processLine`, and the carry is cleared.  When the carry is empty this is
exactly the zero-copy branch of the source.  The helper `clearCarry` models
`partialLine_.clear()`. -/
def clearCarry (st : LMState) : LMState := { st with carry := [] }

/-- Spec-side helper: the `stats_.longLinesDiscarded++` of the trailing
branch. -/
def bumpDisc (st : LMState) : LMState :=
  { st with stats := { st.stats with longLinesDiscarded := st.stats.longLinesDiscarded + 1 } }

def newlineStep (kws : List (List Nat)) (st : LMState) (seg : List Nat) : LMState :=
  clearCarry (processLine kws st (st.carry ++ seg))

/-- The trailing-segment branch of `processBuffer` (lines 156-171): if the
carry plus the remaining bytes reaches `MAX_LINE_LENGTH`, the source appends
`MAX_LINE_LENGTH - partialLine_.length()` bytes, processes the assembled
line, clears the carry and increments `longLinesDiscarded`; otherwise it
appends the remainder to the carry. -/
def finishTail (kws : List (List Nat)) (st : LMState) (rem : List Nat) : LMState :=
  if rem = [] then st
  else if MAX_LINE_LENGTH ≤ st.carry.length + rem.length then
    bumpDisc (clearCarry
      (processLine kws st (st.carry ++ rem.take (MAX_LINE_LENGTH - st.carry.length))))
  else
    { st with carry := st.carry ++ rem }

/-- The scan loop of `processBuffer` (lines 137-154): `acc` is the slice
`buffer[start..i]` accumulated since the last terminator (or buffer start). -/
def scanBuf (kws : List (List Nat)) (st : LMState) (acc : List Nat) : List Nat → LMState
  | [] => finishTail kws st acc
  | b :: rest =>
      if b = NL then scanBuf kws (newlineStep kws st acc) [] rest
      else scanBuf kws st (acc ++ [b]) rest

/-- Models `LogMonitor::processBuffer` (lines 132-172): `bytesRead` is bumped
first (line 133), then the buffer is scanned. -/
def processBuffer (kws : List (List Nat)) (st : LMState) (buf : List Nat) : LMState :=
  scanBuf kws
    { st with stats := { st.stats with bytesRead := st.stats.bytesRead + buf.length } } [] buf

/-- Feeding a sequence of read buffers to `processBuffer` in arrival order,
as the read loop of `LogMonitor::start` does. -/
def processChunks (kws : List (List Nat)) (st : LMState) (chunks : List (List Nat)) : LMState :=
  chunks.foldl (processBuffer kws) st

/-- Spec-side: the newline-delimited records of a byte stream, in order.  The
list is never empty; its last element is the trailing (unterminated) segment,
which is `[]` exactly when the stream is empty or ends with a terminator. -/
def recs : List Nat → List (List Nat)
  | [] => [[]]
  | b :: rest =>
      if b = NL then [] :: recs rest
      else
        match recs rest with
        | [] => [[b]]
        | r :: rs => (b :: r) :: rs

/-- Spec-side: merging record lists across a concatenation boundary: the last
record of the left stream continues into the first record of the right one. -/
def mergeRecs : List (List Nat) → List (List Nat) → List (List Nat)
  | [], ys => ys
  | [x], [] => [x]
  | [x], y :: t => (x ++ y) :: t
  | x :: x1 :: xs, ys => x :: mergeRecs (x1 :: xs) ys

/-- Spec-side: record-at-a-time description of the scanner: every record but
the last went through the newline branch, the last through the trailing
branch. -/
def runRecs (kws : List (List Nat)) (st : LMState) : List (List Nat) → LMState
  | [] => st
  | [r] => finishTail kws st r
  | r :: r1 :: rs => runRecs kws (newlineStep kws st r) (r1 :: rs)

/-- Spec-side: the effect of `processLine` on the statistics record. -/
def lineStats (kws : List (List Nat)) (s : Statistics) (l : List Nat) : Statistics :=
  if l = [] then s
  else
    { linesProcessed := s.linesProcessed + 1,
      linesMatched := s.linesMatched +
        (if KeywordMatcher.hasMatch kws (l.take MAX_LINE_LENGTH) then 1 else 0),
      bytesRead := s.bytesRead,
      longLinesDiscarded := s.longLinesDiscarded +
        (if MAX_LINE_LENGTH < l.length then 1 else 0) }

/-- Spec-side: the bytes `processLine` writes to the sink for a raw line. -/
def emitOne (kws : List (List Nat)) (l : List Nat) : List Nat :=
  if l = [] then []
  else if KeywordMatcher.hasMatch kws (l.take MAX_LINE_LENGTH) then
    l.take MAX_LINE_LENGTH ++ [NL]
  else []

/-- Spec-side: adding `n` to the `bytesRead` counter of a state. -/
def bumpBytes (st : LMState) (n : Nat) : LMState :=
  { st with stats := { st.stats with bytesRead := st.stats.bytesRead + n } }

/-- Spec-side: a byte string free of the line terminator. -/
def noNl (l : List Nat) : Prop := ∀ b ∈ l, b ≠ NL

instance noNlDec (l : List Nat) : Decidable (noNl l) := List.decidableBAll _ l

/-- Spec-side: the complete lines of the output byte stream (each write ends
with a newline byte, so these are the records of the output except the empty
trailing segment). -/
def outLines (o : List Nat) : List (List Nat) := (recs o).dropLast

/-- Result kind of one `istream::read` call in `LogMonitor::start`:
a full read, a short read that hit end-of-file, or an I/O error. -/
inductive ReadKind where
  | rOk : ReadKind
  | rEof : ReadKind
  | rErr : ReadKind
deriving DecidableEq

/-- The stream-facing state of the monitor inside `LogMonitor::start`:
the input handle's open flag, its get position and status flags, the member
`lastPosition_` (an `std::streampos`, hence signed), and the processing
state. -/
structure TailState where
  isOpen : Bool
  pos : Nat
  eofbit : Bool
  failbit : Bool
  lastPosition : Int
  mon : LMState

/-- One iteration of the inner read loop of `LogMonitor::start` (lines
229-252).  `bytes` is what `read` transferred (`gcount()`), `k` how the call
ended.  Per the C++ iostream semantics: a short read sets `eofbit` and
`failbit`; an error sets `failbit`; `tellg()` returns `-1` whenever `fail()`
is true, else the get position.  The returned Bool is whether the inner loop
continues (`false` models `break`). -/
def readIter (kws : List (List Nat)) (s : TailState) (bytes : List Nat) (k : ReadKind) :
    TailState × Bool :=
  let s1 : TailState :=
    { s with
      pos := s.pos + bytes.length,
      eofbit := decide (k = ReadKind.rEof),
      failbit := decide (k ≠ ReadKind.rOk) }
  let s2 : TailState :=
    if 0 < bytes.length then
      { s1 with
        mon := processBuffer kws s1.mon bytes,
        lastPosition := if s1.failbit then (-1 : Int) else (s1.pos : Int) }
    else s1
  if s2.eofbit then
    ({ s2 with eofbit := false, failbit := false }, false)
  else if s2.failbit then
    ({ s2 with
        isOpen := false,
        lastPosition := 0,
        mon := { s2.mon with carry := [] } }, false)
  else (s2, true)

/-- A nonempty list is a member-wise nonempty record list. -/
theorem recs_ne_nil (l : List Nat) : recs l ≠ [] := by
  match l with
  | [] => simp [recs]
  | b :: rest =>
      simp only [recs]
      split
      · simp
      · split <;> simp

theorem isSub_iff_strFind (text pat : List Nat) :
    isSub pat text ↔ (strFind text pat).isSome = true := by
  constructor
  · rintro ⟨s, t, rfl⟩
    show (List.find? _ _).isSome = true
    refine List.find?_isSome.mpr ⟨s.length, ?_, ?_⟩
    · simp [List.mem_range, List.length_append]
      omega
    · simp only [List.append_assoc, List.drop_left, decide_eq_true_eq]
      rw [List.take_append_of_le_length (Nat.le_refl _), List.take_length]
  · intro h
    rcases Option.isSome_iff_exists.mp h with ⟨i, hi⟩
    have hp := List.find?_some hi
    simp only [decide_eq_true_eq] at hp
    have h1 : text.drop i = (text.drop i).take pat.length ++ (text.drop i).drop pat.length :=
      (List.take_append_drop pat.length (text.drop i)).symm
    rw [← hp] at h1
    refine ⟨text.take i, (text.drop i).drop pat.length, ?_⟩
    conv_lhs => rw [← List.take_append_drop i text, h1]
    rw [List.append_assoc]

/-- `KeywordMatcher::matches` succeeds iff some stored keyword occurs as a
contiguous subsequence of the text. -/
theorem hasMatch_iff (kws : List (List Nat)) (text : List Nat) :
    KeywordMatcher.hasMatch kws text = true ↔ ∃ k ∈ kws, isSub k text := by
  simp only [KeywordMatcher.hasMatch, List.any_eq_true]
  constructor
  · rintro ⟨k, hk, hs⟩
    exact ⟨k, hk, (isSub_iff_strFind text k).mpr hs⟩
  · rintro ⟨k, hk, hs⟩
    exact ⟨k, hk, (isSub_iff_strFind text k).mp hs⟩

theorem recs_cons_nl (rest : List Nat) : recs (NL :: rest) = [] :: recs rest := by
  simp [recs]

theorem recs_cons_ne {b : Nat} (hb : b ≠ NL) {rest r : List Nat} {rs : List (List Nat)}
    (h : recs rest = r :: rs) : recs (b :: rest) = (b :: r) :: rs := by
  simp only [recs, if_neg hb, h]

theorem noNl_nil : noNl [] := by simp [noNl]

theorem noNl_cons {b : Nat} {l : List Nat} (hb : b ≠ NL) (hl : noNl l) : noNl (b :: l) := by
  intro x hx
  rcases List.mem_cons.mp hx with rfl | hx
  · exact hb
  · exact hl x hx

theorem noNl_append {a b : List Nat} (ha : noNl a) (hb : noNl b) : noNl (a ++ b) := by
  intro x hx
  rcases List.mem_append.mp hx with hx | hx
  · exact ha x hx
  · exact hb x hx

theorem noNl_of_append_left {a b : List Nat} (h : noNl (a ++ b)) : noNl a :=
  fun x hx => h x (List.mem_append.mpr (Or.inl hx))

theorem noNl_of_append_right {a b : List Nat} (h : noNl (a ++ b)) : noNl b :=
  fun x hx => h x (List.mem_append.mpr (Or.inr hx))

theorem noNl_take {a : List Nat} (n : Nat) (h : noNl a) : noNl (a.take n) :=
  fun x hx => h x (List.mem_of_mem_take hx)

theorem recs_noNl_pre {a : List Nat} (ha : noNl a) :
    ∀ {b r : List Nat} {rs : List (List Nat)},
      recs b = r :: rs → recs (a ++ b) = (a ++ r) :: rs := by
  induction a with
  | nil => intro b r rs h; simpa using h
  | cons x a ih =>
      intro b r rs h
      have hx : x ≠ NL := ha x (by simp)
      have ha' : noNl a := fun y hy => ha y (List.mem_cons_of_mem _ hy)
      rw [List.cons_append, recs_cons_ne hx (ih ha' h), List.cons_append]

theorem recs_of_noNl {a : List Nat} (ha : noNl a) : recs a = [a] := by
  have h : recs (a ++ ([] : List Nat)) = (a ++ []) :: [] := recs_noNl_pre ha rfl
  simpa using h

theorem mem_recs_noNl : ∀ (l : List Nat), ∀ r ∈ recs l, noNl r := by
  intro l
  induction l with
  | nil => intro r hr; simp [recs] at hr; simpa [hr] using noNl_nil
  | cons b rest ih =>
      intro r hr
      by_cases hb : b = NL
      · subst hb
        rw [recs_cons_nl] at hr
        rcases List.mem_cons.mp hr with rfl | hr
        · exact noNl_nil
        · exact ih r hr
      · rcases hrec : recs rest with _ | ⟨r0, rs0⟩
        · exact absurd hrec (recs_ne_nil rest)
        · rw [recs_cons_ne hb hrec] at hr
          rcases List.mem_cons.mp hr with rfl | hr
          · exact noNl_cons hb (ih r0 (by rw [hrec]; exact List.mem_cons_self _ _))
          · exact ih r (by rw [hrec]; exact List.mem_cons_of_mem _ hr)

theorem mergeRecs_ne_nil {xs ys : List (List Nat)} (hx : xs ≠ []) :
    mergeRecs xs ys ≠ [] := by
  match xs, ys with
  | [x], [] => simp [mergeRecs]
  | [x], y :: t => simp [mergeRecs]
  | x :: x1 :: xs, ys => simp [mergeRecs]

theorem recs_append (a b : List Nat) :
    recs (a ++ b) = mergeRecs (recs a) (recs b) := by
  induction a with
  | nil =>
      rcases h : recs b with _ | ⟨r, rs⟩
      · exact absurd h (recs_ne_nil b)
      · simp [recs, mergeRecs, h]
  | cons c a ih =>
      by_cases hc : c = NL
      · subst hc
        rw [List.cons_append, recs_cons_nl, recs_cons_nl, ih]
        rcases ha : recs a with _ | ⟨x, xs⟩
        · exact absurd ha (recs_ne_nil a)
        · rcases hb : recs b with _ | ⟨y, ys⟩
          · exact absurd hb (recs_ne_nil b)
          · rcases xs with _ | ⟨x1, xs⟩ <;> simp [mergeRecs]
      · rcases ha : recs a with _ | ⟨x, xs⟩
        · exact absurd ha (recs_ne_nil a)
        · rcases xs with _ | ⟨x1, xs⟩
          · rcases hb : recs b with _ | ⟨y, ys⟩
            · exact absurd hb (recs_ne_nil b)
            · have hab : recs (a ++ b) = (x ++ y) :: ys := by
                rw [ih, ha, hb]; rfl
              rw [List.cons_append, recs_cons_ne hc hab, recs_cons_ne hc ha]
              simp [mergeRecs, List.cons_append]
          · have hab : recs (a ++ b) = x :: mergeRecs (x1 :: xs) (recs b) := by
              rw [ih, ha]; rfl
            rw [List.cons_append, recs_cons_ne hc hab, recs_cons_ne hc ha]
            simp [mergeRecs]

theorem getLastD_mem {α : Type} : ∀ (l : List α) (d : α), l ≠ [] → l.getLastD d ∈ l := by
  intro l
  induction l with
  | nil => intro d h; simp at h
  | cons x xs ih =>
      intro d h
      rcases xs with _ | ⟨y, ys⟩
      · simp
      · have := ih d (by simp)
        simpa using Or.inr (by simpa using this)

theorem take_all_of_len_le {l : List Nat} {n : Nat} (h : l.length ≤ n) : l.take n = l :=
  List.take_of_length_le h

theorem processLine_spec (kws : List (List Nat)) (st : LMState) (l : List Nat) :
    processLine kws st l =
      { st with stats := lineStats kws st.stats l, output := st.output ++ emitOne kws l } := by
  rcases st with ⟨c, o, lp, lm, br, ld⟩
  by_cases h0 : l = []
  · subst h0; simp [processLine, lineStats, emitOne]
  · by_cases h1 : MAX_LINE_LENGTH < l.length
    · by_cases h2 : KeywordMatcher.hasMatch kws (l.take MAX_LINE_LENGTH) = true <;>
        simp [processLine, lineStats, emitOne, h0, h1, h2]
    · have ht : l.take MAX_LINE_LENGTH = l := take_all_of_len_le (Nat.le_of_not_lt h1)
      by_cases h2 : KeywordMatcher.hasMatch kws l = true <;>
        simp [processLine, lineStats, emitOne, h0, h1, ht, h2]

theorem processLine_carry (kws : List (List Nat)) (st : LMState) (l : List Nat) :
    (processLine kws st l).carry = st.carry := by
  rw [processLine_spec]

theorem runRecs_nil (kws : List (List Nat)) (st : LMState) : runRecs kws st [] = st := rfl

theorem runRecs_single (kws : List (List Nat)) (st : LMState) (r : List Nat) :
    runRecs kws st [r] = finishTail kws st r := rfl

theorem runRecs_cons2 (kws : List (List Nat)) (st : LMState) (r r1 : List Nat)
    (rs : List (List Nat)) :
    runRecs kws st (r :: r1 :: rs) = runRecs kws (newlineStep kws st r) (r1 :: rs) := rfl

theorem scanBuf_nil (kws : List (List Nat)) (st : LMState) (acc : List Nat) :
    scanBuf kws st acc [] = finishTail kws st acc := rfl

theorem scanBuf_cons (kws : List (List Nat)) (st : LMState) (acc : List Nat) (b : Nat)
    (rest : List Nat) :
    scanBuf kws st acc (b :: rest) =
      if b = NL then scanBuf kws (newlineStep kws st acc) [] rest
      else scanBuf kws st (acc ++ [b]) rest := rfl

theorem scanBuf_eq_runRecs (kws : List (List Nat)) :
    ∀ (b : List Nat) (st : LMState) (acc : List Nat), noNl acc →
      scanBuf kws st acc b = runRecs kws st (mergeRecs [acc] (recs b)) := by
  intro b
  induction b with
  | nil =>
      intro st acc _
      simp [scanBuf_nil, recs, mergeRecs, runRecs_single]
  | cons c rest ih =>
      intro st acc hacc
      by_cases hc : c = NL
      · subst hc
        rw [scanBuf_cons, if_pos rfl, ih _ [] noNl_nil, recs_cons_nl]
        rcases hr : recs rest with _ | ⟨r, rs⟩
        · exact absurd hr (recs_ne_nil rest)
        · simp only [mergeRecs, List.nil_append, List.append_nil]
          rw [runRecs_cons2]
      · rw [scanBuf_cons, if_neg hc, ih _ (acc ++ [c]) (noNl_append hacc (by
            intro x hx; simp at hx; subst hx; exact hc))]
        rcases hr : recs rest with _ | ⟨r, rs⟩
        · exact absurd hr (recs_ne_nil rest)
        · rw [recs_cons_ne hc hr]
          simp [mergeRecs, List.append_assoc]

theorem mergeRecs_nil_left (ys : List (List Nat)) (hy : ys ≠ []) :
    mergeRecs [([] : List Nat)] ys = ys := by
  rcases ys with _ | ⟨y, t⟩
  · simp at hy
  · simp [mergeRecs]

theorem processBuffer_eq (kws : List (List Nat)) (st : LMState) (buf : List Nat) :
    processBuffer kws st buf = runRecs kws (bumpBytes st buf.length) (recs buf) := by
  rw [processBuffer]
  show scanBuf kws (bumpBytes st buf.length) [] buf = _
  rw [scanBuf_eq_runRecs kws buf _ [] noNl_nil,
    mergeRecs_nil_left _ (recs_ne_nil buf)]

theorem processLine_setCarry (kws : List (List Nat)) (st : LMState) (x l : List Nat) :
    processLine kws { st with carry := x } l = { processLine kws st l with carry := x } := by
  simp [processLine_spec]

theorem finishTail_small (kws : List (List Nat)) (st : LMState) (r : List Nat)
    (h : st.carry.length + r.length < MAX_LINE_LENGTH) :
    finishTail kws st r = { st with carry := st.carry ++ r } := by
  by_cases hr : r = []
  · simp [finishTail, hr]
  · rw [finishTail, if_neg hr, if_neg (by omega)]

theorem newlineStep_shift (kws : List (List Nat)) (st : LMState) (r y : List Nat) :
    newlineStep kws { st with carry := st.carry ++ r } y = newlineStep kws st (r ++ y) := by
  simp [newlineStep, clearCarry, processLine_setCarry, List.append_assoc]

theorem getLastD_cons2 {A : Type} (x y : A) (l : List A) (d : A) :
    (x :: y :: l).getLastD d = (y :: l).getLastD d := rfl

theorem finishTail_shift (kws : List (List Nat)) (st : LMState) (r y : List Nat)
    (h : st.carry.length + r.length < MAX_LINE_LENGTH) :
    finishTail kws { st with carry := st.carry ++ r } y = finishTail kws st (r ++ y) := by
  by_cases hy : y = []
  · subst hy
    rw [List.append_nil, finishTail_small kws st r h]
    simp [finishTail]
  · have hry : r ++ y ≠ [] := by simp [hy]
    by_cases hth : MAX_LINE_LENGTH ≤ st.carry.length + (r ++ y).length
    · have hthL : MAX_LINE_LENGTH ≤ (st.carry ++ r).length + y.length := by
        simp only [List.length_append] at hth ⊢
        omega
      rw [finishTail, if_neg hy]
      simp only [if_pos hthL]
      rw [finishTail, if_neg hry, if_pos hth]
      have hlen : r.length ≤ MAX_LINE_LENGTH - st.carry.length := by omega
      have ht1 : (r ++ y).take (MAX_LINE_LENGTH - st.carry.length) =
          r ++ y.take (MAX_LINE_LENGTH - st.carry.length - r.length) := by
        rw [List.take_append_eq_append_take, take_all_of_len_le hlen]
      have ht2 : MAX_LINE_LENGTH - st.carry.length - r.length =
          MAX_LINE_LENGTH - (st.carry ++ r).length := by
        simp only [List.length_append]
        omega
      rw [ht1, ← ht2]
      simp [processLine_setCarry, List.append_assoc, clearCarry]
    · have hthL : ¬ MAX_LINE_LENGTH ≤ (st.carry ++ r).length + y.length := by
        simp only [List.length_append] at hth ⊢
        omega
      rw [finishTail, if_neg hy]
      simp only [if_neg hthL]
      rw [finishTail, if_neg hry, if_neg hth]
      simp [List.append_assoc]

theorem mergeRecs_cons2 (x x1 : List Nat) (xs ys : List (List Nat)) :
    mergeRecs (x :: x1 :: xs) ys = x :: mergeRecs (x1 :: xs) ys := rfl

theorem runRecs_merge (kws : List (List Nat)) :
    ∀ (rs1 : List (List Nat)), ∀ (rs2 : List (List Nat)) (st : LMState), rs1 ≠ [] → rs2 ≠ [] →
      (rs1.getLastD []).length < MAX_LINE_LENGTH →
      (∀ r, rs1 = [r] → st.carry.length + r.length < MAX_LINE_LENGTH) →
      runRecs kws (runRecs kws st rs1) rs2 = runRecs kws st (mergeRecs rs1 rs2) := by
  intro rs1
  induction rs1 with
  | nil => intro rs2 st h1 _ _ _; simp at h1
  | cons r rest ih =>
      intro rs2 st _ h2 h3 h4
      rcases rest with _ | ⟨r1, rest'⟩
      · -- rs1 = [r]
        have hc : st.carry.length + r.length < MAX_LINE_LENGTH := h4 r rfl
        rw [runRecs_single, finishTail_small kws st r hc]
        rcases rs2 with _ | ⟨y, t⟩
        · simp at h2
        · rcases t with _ | ⟨y1, t'⟩
          · rw [runRecs_single, finishTail_shift kws st r y hc]
            simp [mergeRecs, runRecs_single]
          · rw [runRecs_cons2, newlineStep_shift kws st r y]
            simp [mergeRecs, runRecs_cons2]
      · -- rs1 = r :: r1 :: rest'
        rw [getLastD_cons2] at h3
        rw [runRecs_cons2]
        have hih := ih rs2 (newlineStep kws st r) (by simp) h2 h3 (by
          intro r' hr'
          have hc0 : (newlineStep kws st r).carry = [] := by simp [newlineStep, clearCarry]
          rw [hc0]
          simp only [List.length_nil, Nat.zero_add]
          rw [hr'] at h3
          simpa using h3)
        rw [hih, mergeRecs_cons2]
        rcases hm : mergeRecs (r1 :: rest') rs2 with _ | ⟨m, ms⟩
        · exact absurd hm (mergeRecs_ne_nil (by simp))
        · exact (runRecs_cons2 kws st r m ms).symm

theorem lineStats_bump (kws : List (List Nat)) (s : Statistics) (l : List Nat) (n : Nat) :
    lineStats kws { s with bytesRead := s.bytesRead + n } l =
      { lineStats kws s l with bytesRead := (lineStats kws s l).bytesRead + n } := by
  rcases s with ⟨lp, lm, br, ld⟩
  by_cases h : l = [] <;> simp [lineStats, h]

theorem processLine_bump (kws : List (List Nat)) (st : LMState) (l : List Nat) (n : Nat) :
    processLine kws (bumpBytes st n) l = bumpBytes (processLine kws st l) n := by
  simp [processLine_spec, bumpBytes, lineStats_bump]

theorem bumpBytes_bump (st : LMState) (a b : Nat) :
    bumpBytes (bumpBytes st a) b = bumpBytes st (a + b) := by
  simp [bumpBytes, Nat.add_assoc]

theorem bumpBytes_carry (st : LMState) (n : Nat) : (bumpBytes st n).carry = st.carry := rfl

theorem clearCarry_bump (st : LMState) (n : Nat) :
    clearCarry (bumpBytes st n) = bumpBytes (clearCarry st) n := by
  rcases st with ⟨c, o, s⟩
  rfl

theorem bumpDisc_bump (st : LMState) (n : Nat) :
    bumpDisc (bumpBytes st n) = bumpBytes (bumpDisc st) n := by
  rcases st with ⟨c, o, lp, lm, br, ld⟩
  rfl

theorem newlineStep_bump (kws : List (List Nat)) (st : LMState) (seg : List Nat) (n : Nat) :
    newlineStep kws (bumpBytes st n) seg = bumpBytes (newlineStep kws st seg) n := by
  rw [newlineStep, newlineStep, bumpBytes_carry, processLine_bump, clearCarry_bump]

theorem finishTail_bump (kws : List (List Nat)) (st : LMState) (rem : List Nat) (n : Nat) :
    finishTail kws (bumpBytes st n) rem = bumpBytes (finishTail kws st rem) n := by
  by_cases h0 : rem = []
  · simp [finishTail, h0]
  · by_cases h1 : MAX_LINE_LENGTH ≤ st.carry.length + rem.length
    · rw [finishTail, if_neg h0, finishTail, if_neg h0, bumpBytes_carry, if_pos h1, if_pos h1,
        processLine_bump, clearCarry_bump, bumpDisc_bump]
    · rw [finishTail, if_neg h0, finishTail, if_neg h0, bumpBytes_carry, if_neg h1, if_neg h1]
      rcases st with ⟨c, o, s⟩
      rfl

theorem runRecs_bump (kws : List (List Nat)) :
    ∀ (rs : List (List Nat)) (st : LMState) (n : Nat),
      runRecs kws (bumpBytes st n) rs = bumpBytes (runRecs kws st rs) n := by
  intro rs
  induction rs with
  | nil => intro st n; rfl
  | cons r rest ih =>
      intro st n
      rcases rest with _ | ⟨r1, rest'⟩
      · rw [runRecs_single, runRecs_single, finishTail_bump]
      · rw [runRecs_cons2, runRecs_cons2, newlineStep_bump, ih]

theorem processBuffer_nil (kws : List (List Nat)) (st : LMState) :
    processBuffer kws st [] = st := by
  rw [processBuffer_eq]
  show runRecs kws (bumpBytes st 0) [[]] = st
  rw [runRecs_single]
  simp [finishTail, bumpBytes]

theorem runRecs_carry (kws : List (List Nat)) :
    ∀ (rs : List (List Nat)) (st : LMState), rs ≠ [] →
      (rs.getLastD []).length < MAX_LINE_LENGTH →
      (∀ r, rs = [r] → st.carry.length + r.length < MAX_LINE_LENGTH) →
      (runRecs kws st rs).carry = (mergeRecs [st.carry] rs).getLastD [] := by
  intro rs
  induction rs with
  | nil => intro st h; simp at h
  | cons r rest ih =>
      intro st _ h3 h4
      rcases rest with _ | ⟨r1, rest'⟩
      · rw [runRecs_single, finishTail_small kws st r (h4 r rfl)]
        rfl
      · rw [getLastD_cons2] at h3
        rw [runRecs_cons2]
        have hih := ih (newlineStep kws st r) (by simp) h3 (by
          intro r' hr'
          have hc0 : (newlineStep kws st r).carry = [] := by simp [newlineStep, clearCarry]
          rw [hc0]
          simp only [List.length_nil, Nat.zero_add]
          rw [hr'] at h3
          simpa using h3)
        rw [hih]
        have hc0 : (newlineStep kws st r).carry = [] := by simp [newlineStep, clearCarry]
        rw [hc0, mergeRecs_nil_left _ (by simp)]
        rfl

theorem mergeRecs_last_pre :
    ∀ (xs ys : List (List Nat)), xs ≠ [] → ys ≠ [] →
      ∃ R ∈ mergeRecs xs ys, isPref (xs.getLastD []) R := by
  intro xs
  induction xs with
  | nil => intro ys h; simp at h
  | cons x rest ih =>
      intro ys _ hy
      rcases rest with _ | ⟨x1, rest'⟩
      · rcases ys with _ | ⟨y, t⟩
        · simp at hy
        · exact ⟨x ++ y, by simp [mergeRecs], ⟨y, rfl⟩⟩
      · rcases ih ys (by simp) hy with ⟨R, hR, hp⟩
        exact ⟨R, by rw [mergeRecs_cons2]; exact List.mem_cons_of_mem _ hR,
          by rwa [getLastD_cons2]⟩

theorem mergeRecs_last_mem :
    ∀ (xs ys : List (List Nat)), xs ≠ [] →
      ∀ r ∈ mergeRecs [xs.getLastD []] ys, r ∈ mergeRecs xs ys := by
  intro xs
  induction xs with
  | nil => intro ys h; simp at h
  | cons x rest ih =>
      intro ys _ r hr
      rcases rest with _ | ⟨x1, rest'⟩
      · exact hr
      · rw [getLastD_cons2] at hr
        rw [mergeRecs_cons2]
        exact List.mem_cons_of_mem _ (ih ys (by simp) r hr)

theorem isPref_length {p l : List Nat} (h : isPref p l) : p.length ≤ l.length := by
  rcases h with ⟨t, rfl⟩
  simp [List.length_append]

theorem processBuffer_bump_eq (kws : List (List Nat)) (st : LMState) (buf : List Nat) :
    processBuffer kws st buf = bumpBytes (runRecs kws st (recs buf)) buf.length := by
  rw [processBuffer_eq, runRecs_bump]

theorem processChunks_nil (kws : List (List Nat)) (st : LMState) :
    processChunks kws st [] = st := rfl

theorem processChunks_cons (kws : List (List Nat)) (st : LMState) (c : List Nat)
    (cs : List (List Nat)) :
    processChunks kws st (c :: cs) = processChunks kws (processBuffer kws st c) cs := rfl

theorem foldl_processBuffer (kws : List (List Nat)) :
    ∀ (cs : List (List Nat)) (st : LMState), noNl st.carry →
      (∀ r ∈ recs (st.carry ++ cs.flatten), r.length < MAX_LINE_LENGTH) →
      processChunks kws st cs = processBuffer kws st cs.flatten := by
  intro cs
  induction cs with
  | nil =>
      intro st _ _
      simp [processChunks_nil, processBuffer_nil]
  | cons c cs' ih =>
      intro st hnc h
      rw [show st.carry ++ (c :: cs').flatten = (st.carry ++ c) ++ cs'.flatten by
        simp [List.append_assoc]] at h
      have hrecsA : recs (st.carry ++ c) = mergeRecs [st.carry] (recs c) := by
        rw [recs_append, recs_of_noNl hnc]
      set T := (recs (st.carry ++ c)).getLastD [] with hT
      obtain ⟨R, hRmem, hRpref⟩ :=
        mergeRecs_last_pre (recs (st.carry ++ c)) (recs cs'.flatten) (recs_ne_nil _) (recs_ne_nil _)
      have hRmem' : R ∈ recs ((st.carry ++ c) ++ cs'.flatten) := by
        rw [recs_append]
        exact hRmem
      have hTlt : T.length < MAX_LINE_LENGTH :=
        lt_of_le_of_lt (isPref_length hRpref) (h R hRmem')
      have hconds : ((recs c).getLastD []).length < MAX_LINE_LENGTH ∧
          (∀ r, recs c = [r] → st.carry.length + r.length < MAX_LINE_LENGTH) := by
        rcases hrc : recs c with _ | ⟨x, xs⟩
        · exact absurd hrc (recs_ne_nil c)
        · rcases xs with _ | ⟨x1, xs'⟩
          · have hm : recs (st.carry ++ c) = [st.carry ++ x] := by
              rw [hrecsA, hrc]
              rfl
            have hTeq : T = st.carry ++ x := by
              rw [hT, hm]
              rfl
            constructor
            · have hx : x.length ≤ T.length := by
                rw [hTeq]
                simp [List.length_append]
              exact lt_of_le_of_lt hx hTlt
            · intro r hr
              injection hr with h1 _
              have hlen : st.carry.length + r.length = T.length := by
                rw [hTeq, ← h1, List.length_append]
              omega
          · have hm : recs (st.carry ++ c) = (st.carry ++ x) :: x1 :: xs' := by
              rw [hrecsA, hrc]
              rfl
            have hTeq : T = (x1 :: xs').getLastD [] := by
              rw [hT, hm, getLastD_cons2]
            constructor
            · rw [getLastD_cons2, ← hTeq]
              exact hTlt
            · intro r hr
              exact absurd hr (by simp)
      have hst1carry : (processBuffer kws st c).carry = T := by
        rw [processBuffer_bump_eq, bumpBytes_carry,
          runRecs_carry kws (recs c) st (recs_ne_nil c) hconds.1 hconds.2, ← hrecsA]
      have hTnoNl : noNl T :=
        mem_recs_noNl _ T (by rw [hT]; exact getLastD_mem _ _ (recs_ne_nil _))
      have hIH : ∀ r ∈ recs ((processBuffer kws st c).carry ++ cs'.flatten),
          r.length < MAX_LINE_LENGTH := by
        intro r hr
        rw [hst1carry, recs_append, recs_of_noNl hTnoNl] at hr
        have hmem := mergeRecs_last_mem (recs (st.carry ++ c)) (recs cs'.flatten)
          (recs_ne_nil _) r (by rw [← hT]; exact hr)
        exact h r (by rw [recs_append]; exact hmem)
      rw [processChunks_cons, ih (processBuffer kws st c) (by rw [hst1carry]; exact hTnoNl) hIH]
      rw [show (c :: cs').flatten = c ++ cs'.flatten from by simp]
      rw [processBuffer_bump_eq kws (processBuffer kws st c) cs'.flatten,
        processBuffer_bump_eq kws st c, runRecs_bump, bumpBytes_bump,
        runRecs_merge kws (recs c) (recs cs'.flatten) st (recs_ne_nil c) (recs_ne_nil cs'.flatten)
          hconds.1 hconds.2,
        ← recs_append, processBuffer_bump_eq kws st (c ++ cs'.flatten), List.length_append]

theorem clearCarry_carry (st : LMState) : (clearCarry st).carry = [] := rfl

theorem bumpDisc_carry (st : LMState) : (bumpDisc st).carry = st.carry := rfl

theorem newlineStep_carry (kws : List (List Nat)) (st : LMState) (seg : List Nat) :
    (newlineStep kws st seg).carry = [] := rfl

theorem max_pos : 0 < MAX_LINE_LENGTH := by decide

theorem scanBuf_carry_lt (kws : List (List Nat)) :
    ∀ (b : List Nat) (st : LMState) (acc : List Nat),
      st.carry.length < MAX_LINE_LENGTH →
      (scanBuf kws st acc b).carry.length < MAX_LINE_LENGTH := by
  intro b
  induction b with
  | nil =>
      intro st acc hst
      rw [scanBuf_nil]
      by_cases h0 : acc = []
      · simpa [finishTail, h0] using hst
      · by_cases h1 : MAX_LINE_LENGTH ≤ st.carry.length + acc.length
        · rw [finishTail, if_neg h0, if_pos h1, bumpDisc_carry, clearCarry_carry]
          exact max_pos
        · rw [finishTail, if_neg h0, if_neg h1]
          simp only [List.length_append]
          omega
  | cons c rest ih =>
      intro st acc hst
      rw [scanBuf_cons]
      by_cases hc : c = NL
      · rw [if_pos hc]
        exact ih _ [] (by rw [newlineStep_carry]; exact max_pos)
      · rw [if_neg hc]
        exact ih _ (acc ++ [c]) hst

theorem isSuf_nil (l : List Nat) : isSuf [] l := ⟨l, (List.append_nil l).symm⟩

theorem isSuf_self (l : List Nat) : isSuf l l := ⟨[], rfl⟩

theorem isSuf_append_left (a : List Nat) {p l : List Nat} (h : isSuf p l) : isSuf p (a ++ l) := by
  rcases h with ⟨s, rfl⟩
  exact ⟨a ++ s, by rw [List.append_assoc]⟩

theorem isSub_append_left (a : List Nat) {p l : List Nat} (h : isSub p l) : isSub p (a ++ l) := by
  rcases h with ⟨s, t, rfl⟩
  exact ⟨a ++ s, t, by simp [List.append_assoc]⟩

theorem isSub_of_isPref {p l : List Nat} (h : isPref p l) : isSub p l := by
  rcases h with ⟨t, rfl⟩
  exact ⟨[], t, rfl⟩

theorem isPref_take (n : Nat) (l : List Nat) : isPref (l.take n) l :=
  ⟨l.drop n, (List.take_append_drop n l).symm⟩

theorem isPref_append (p t : List Nat) : isPref p (p ++ t) := ⟨t, rfl⟩

theorem isSub_take {p l : List Nat} (n : Nat) (h : isSub p l) : isSub (p.take n) l := by
  rcases h with ⟨s, t, rfl⟩
  rcases isPref_take n p with ⟨u, hu⟩
  refine ⟨s, u ++ t, ?_⟩
  conv_lhs => rw [hu]
  simp [List.append_assoc]

theorem processLine_char (kws : List (List Nat)) (st : LMState) (l : List Nat) :
    (processLine kws st l).output = st.output ++ emitOne kws l ∧
    (processLine kws st l).stats.linesMatched = st.stats.linesMatched +
      (if l = [] then 0
       else if KeywordMatcher.hasMatch kws (l.take MAX_LINE_LENGTH) then 1 else 0) := by
  rw [processLine_spec]
  constructor
  · rfl
  · show (lineStats kws st.stats l).linesMatched = _
    by_cases h0 : l = []
    · simp [lineStats, h0]
    · by_cases hm : KeywordMatcher.hasMatch kws (l.take MAX_LINE_LENGTH) = true <;>
        simp [lineStats, h0, hm]

theorem dropLast_cons2 {A : Type} (x y : A) (l : List A) :
    (x :: y :: l).dropLast = x :: (y :: l).dropLast := rfl

theorem lineStats_disc (kws : List (List Nat)) (s : Statistics) (l : List Nat) :
    (lineStats kws s l).longLinesDiscarded = s.longLinesDiscarded +
      (if MAX_LINE_LENGTH < l.length then 1 else 0) := by
  by_cases h0 : l = []
  · subst h0
    simp [lineStats]
  · simp [lineStats, h0]

theorem runRecs_disc_out (kws : List (List Nat)) :
    ∀ (rs : List (List Nat)) (st : LMState), st.carry = [] → rs ≠ [] →
      rs.getLastD [] = [] →
      (runRecs kws st rs).stats.longLinesDiscarded =
          st.stats.longLinesDiscarded +
            rs.dropLast.countP (fun r => decide (MAX_LINE_LENGTH < r.length)) ∧
      (runRecs kws st rs).output = st.output ++ (rs.dropLast.map (emitOne kws)).flatten := by
  intro rs
  induction rs with
  | nil => intro st _ h; simp at h
  | cons r rest ih =>
      intro st hc _ hlast
      rcases rest with _ | ⟨r1, rest'⟩
      · have hr : r = [] := by simpa using hlast
        subst hr
        rw [runRecs_single]
        simp [finishTail]
      · rw [runRecs_cons2]
        have hstep : newlineStep kws st r = clearCarry (processLine kws st r) := by
          rw [newlineStep, hc, List.nil_append]
        rw [hstep]
        have hih := ih (clearCarry (processLine kws st r)) (clearCarry_carry _) (by simp)
          (by rw [getLastD_cons2] at hlast; exact hlast)
        rcases hih with ⟨hd, ho⟩
        constructor
        · rw [hd]
          have hstats : (clearCarry (processLine kws st r)).stats = lineStats kws st.stats r := by
            rw [processLine_spec]
            rfl
          rw [hstats, lineStats_disc, dropLast_cons2, List.countP_cons]
          simp only [decide_eq_true_eq]
          by_cases hl : MAX_LINE_LENGTH < r.length
          · simp [hl]
            omega
          · simp [hl]
        · rw [ho]
          have hout : (clearCarry (processLine kws st r)).output =
              st.output ++ emitOne kws r := by
            rw [processLine_spec]
            rfl
          rw [hout, dropLast_cons2, List.map_cons, List.flatten_cons, List.append_assoc]

theorem finishTail_nil (kws : List (List Nat)) (st : LMState) : finishTail kws st [] = st := by
  simp [finishTail]

theorem scanBuf_char (kws : List (List Nat)) :
    ∀ (b : List Nat) (st : LMState) (acc : List Nat), noNl acc → noNl st.carry →
      ∃ L : List (List Nat),
        (scanBuf kws st acc b).output =
            st.output ++ (L.map (fun l => l.take MAX_LINE_LENGTH ++ [NL])).flatten ∧
        (scanBuf kws st acc b).stats.linesMatched = st.stats.linesMatched + L.length ∧
        (∀ l ∈ L, l ≠ [] ∧ noNl l ∧
            KeywordMatcher.hasMatch kws (l.take MAX_LINE_LENGTH) = true ∧
            isSub l (st.carry ++ acc ++ b)) ∧
        isSuf (scanBuf kws st acc b).carry (st.carry ++ acc ++ b) ∧
        noNl (scanBuf kws st acc b).carry := by
  intro b
  induction b with
  | nil =>
      intro st acc hacc hnc
      by_cases h0 : acc = []
      · subst h0
        rw [scanBuf_nil, finishTail_nil]
        refine ⟨[], by simp, by simp, by simp, ?_, hnc⟩
        simp only [List.append_nil]
        exact isSuf_self _
      · by_cases h1 : MAX_LINE_LENGTH ≤ st.carry.length + acc.length
        · rw [scanBuf_nil, finishTail, if_neg h0, if_pos h1]
          set raw := st.carry ++ acc.take (MAX_LINE_LENGTH - st.carry.length) with hraw
          have hrawne : raw ≠ [] := by
            intro h
            rcases List.append_eq_nil.mp h with ⟨hcnil, htnil⟩
            rcases List.take_eq_nil_iff.mp htnil with hn | hancl
            · rw [hcnil] at hn
              simp at hn
              exact absurd hn (Nat.ne_of_gt max_pos)
            · exact h0 hancl
          have hrawnoNl : noNl raw := noNl_append hnc (noNl_take _ hacc)
          have hrawsub : isSub raw (st.carry ++ acc ++ []) := by
            refine ⟨[], acc.drop (MAX_LINE_LENGTH - st.carry.length), ?_⟩
            simp [hraw, List.append_assoc]
          have hout : (bumpDisc (clearCarry (processLine kws st raw))).output =
              st.output ++ emitOne kws raw := (processLine_char kws st raw).1
          have hmat : (bumpDisc (clearCarry (processLine kws st raw))).stats.linesMatched =
              st.stats.linesMatched +
                (if raw = [] then 0
                 else if KeywordMatcher.hasMatch kws (raw.take MAX_LINE_LENGTH) then 1 else 0) :=
            (processLine_char kws st raw).2
          by_cases hm : KeywordMatcher.hasMatch kws (raw.take MAX_LINE_LENGTH) = true
          · refine ⟨[raw], ?_, ?_, ?_, ?_, ?_⟩
            · rw [hout]
              simp [emitOne, hrawne, hm]
            · rw [hmat]
              simp [hrawne, hm]
            · intro l hl
              simp only [List.mem_singleton] at hl
              subst hl
              exact ⟨hrawne, hrawnoNl, hm, hrawsub⟩
            · exact isSuf_nil _
            · exact noNl_nil
          · refine ⟨[], ?_, ?_, by simp, isSuf_nil _, noNl_nil⟩
            · rw [hout]
              simp [emitOne, hrawne, hm]
            · rw [hmat]
              simp [hrawne, hm]
        · rw [scanBuf_nil, finishTail, if_neg h0, if_neg h1]
          refine ⟨[], by simp, by simp, by simp, ?_, noNl_append hnc hacc⟩
          simp only [List.append_nil]
          exact isSuf_self _
  | cons c rest ih =>
      intro st acc hacc hnc
      by_cases hc : c = NL
      · subst hc
        rw [scanBuf_cons, if_pos rfl]
        obtain ⟨L', hO, hM, hP, hS, hN⟩ :=
          ih (newlineStep kws st acc) [] noNl_nil (by rw [newlineStep_carry]; exact noNl_nil)
        have hctx : (newlineStep kws st acc).carry ++ [] ++ rest = rest := by
          rw [newlineStep_carry]
          simp
        rw [hctx] at hP hS
        have hO' : (newlineStep kws st acc).output =
            st.output ++ emitOne kws (st.carry ++ acc) :=
          (processLine_char kws st (st.carry ++ acc)).1
        have hM' : (newlineStep kws st acc).stats.linesMatched =
            st.stats.linesMatched +
              (if st.carry ++ acc = [] then 0
               else if KeywordMatcher.hasMatch kws
                   ((st.carry ++ acc).take MAX_LINE_LENGTH) then 1 else 0) :=
          (processLine_char kws st (st.carry ++ acc)).2
        have hshape : st.carry ++ acc ++ NL :: rest = (st.carry ++ acc ++ [NL]) ++ rest := by
          simp
        by_cases h0 : st.carry ++ acc = []
        · refine ⟨L', ?_, ?_, ?_, ?_, hN⟩
          · rw [hO, hO', h0]
            simp [emitOne]
          · rw [hM, hM']
            simp [h0]
          · intro l hl
            obtain ⟨hne, hno, hmm, hsub⟩ := hP l hl
            refine ⟨hne, hno, hmm, ?_⟩
            rw [hshape]
            exact isSub_append_left _ hsub
          · rw [hshape]
            exact isSuf_append_left _ hS
        · by_cases hm : KeywordMatcher.hasMatch kws
              ((st.carry ++ acc).take MAX_LINE_LENGTH) = true
          · refine ⟨(st.carry ++ acc) :: L', ?_, ?_, ?_, ?_, hN⟩
            · rw [hO, hO']
              simp [emitOne, h0, hm, List.append_assoc]
            · rw [hM, hM']
              simp [h0, hm]
              omega
            · intro l hl
              rcases List.mem_cons.mp hl with rfl | hl
              · refine ⟨h0, noNl_append hnc hacc, hm, ?_⟩
                refine ⟨[], NL :: rest, ?_⟩
                simp
              · obtain ⟨hne, hno, hmm, hsub⟩ := hP l hl
                refine ⟨hne, hno, hmm, ?_⟩
                rw [hshape]
                exact isSub_append_left _ hsub
            · rw [hshape]
              exact isSuf_append_left _ hS
          · refine ⟨L', ?_, ?_, ?_, ?_, hN⟩
            · rw [hO, hO']
              simp [emitOne, h0, hm]
            · rw [hM, hM']
              simp [h0, hm]
            · intro l hl
              obtain ⟨hne, hno, hmm, hsub⟩ := hP l hl
              refine ⟨hne, hno, hmm, ?_⟩
              rw [hshape]
              exact isSub_append_left _ hsub
            · rw [hshape]
              exact isSuf_append_left _ hS
      · rw [scanBuf_cons, if_neg hc]
        obtain ⟨L', hO, hM, hP, hS, hN⟩ := ih st (acc ++ [c])
          (noNl_append hacc (by
            intro x hx
            simp only [List.mem_singleton] at hx
            subst hx
            exact hc)) hnc
        have hshape : st.carry ++ (acc ++ [c]) ++ rest = st.carry ++ acc ++ (c :: rest) := by
          simp
        rw [hshape] at hP hS
        exact ⟨L', hO, hM, hP, hS, hN⟩

theorem isSuf_trans {p q r : List Nat} (h1 : isSuf p q) (h2 : isSuf q r) : isSuf p r := by
  rcases h1 with ⟨s1, rfl⟩
  rcases h2 with ⟨s2, rfl⟩
  exact ⟨s2 ++ s1, by rw [List.append_assoc]⟩

theorem isSuf_append_both {p l : List Nat} (x : List Nat) (h : isSuf p l) :
    isSuf (p ++ x) (l ++ x) := by
  rcases h with ⟨s, rfl⟩
  exact ⟨s, by rw [List.append_assoc]⟩

theorem isSub_of_sub_suf {l p q : List Nat} (h1 : isSub l p) (h2 : isSuf p q) : isSub l q := by
  rcases h1 with ⟨s, t, rfl⟩
  rcases h2 with ⟨s0, rfl⟩
  exact ⟨s0 ++ s, t, by simp [List.append_assoc]⟩

theorem isSub_append_right {l p : List Nat} (t : List Nat) (h : isSub l p) :
    isSub l (p ++ t) := by
  rcases h with ⟨s, t0, rfl⟩
  exact ⟨s, t0 ++ t, by simp [List.append_assoc]⟩

theorem bumpBytes_out (st : LMState) (n : Nat) : (bumpBytes st n).output = st.output := rfl

theorem bumpBytes_matched (st : LMState) (n : Nat) :
    (bumpBytes st n).stats.linesMatched = st.stats.linesMatched := rfl

theorem processBuffer_scan (kws : List (List Nat)) (st : LMState) (buf : List Nat) :
    processBuffer kws st buf = scanBuf kws (bumpBytes st buf.length) [] buf := rfl

theorem chunks_char (kws : List (List Nat)) :
    ∀ (cs : List (List Nat)) (st : LMState) (H : List Nat), noNl st.carry →
      isSuf st.carry H →
      ∃ L : List (List Nat),
        (processChunks kws st cs).output =
            st.output ++ (L.map (fun l => l.take MAX_LINE_LENGTH ++ [NL])).flatten ∧
        (processChunks kws st cs).stats.linesMatched = st.stats.linesMatched + L.length ∧
        (∀ l ∈ L, l ≠ [] ∧ noNl l ∧
            KeywordMatcher.hasMatch kws (l.take MAX_LINE_LENGTH) = true ∧
            isSub l (H ++ cs.flatten)) ∧
        isSuf (processChunks kws st cs).carry (H ++ cs.flatten) ∧
        noNl (processChunks kws st cs).carry := by
  intro cs
  induction cs with
  | nil =>
      intro st H hnc hsuf
      refine ⟨[], by simp [processChunks_nil], by simp [processChunks_nil], by simp, ?_, ?_⟩
      · rw [processChunks_nil]
        simpa using hsuf
      · rw [processChunks_nil]
        exact hnc
  | cons c cs' ih =>
      intro st H hnc hsuf
      rw [processChunks_cons]
      obtain ⟨L1, hO1, hM1, hP1, hS1, hN1⟩ :=
        scanBuf_char kws c (bumpBytes st c.length) [] noNl_nil (by
          rw [bumpBytes_carry]
          exact hnc)
      rw [← processBuffer_scan] at hO1 hM1 hS1 hN1
      rw [bumpBytes_out] at hO1
      rw [bumpBytes_matched] at hM1
      have hctx1 : (bumpBytes st c.length).carry ++ [] ++ c = st.carry ++ c := by
        rw [bumpBytes_carry]
        simp
      rw [hctx1] at hP1
      rw [hctx1] at hS1
      have hSc : isSuf (processBuffer kws st c).carry (H ++ c) :=
        isSuf_trans hS1 (isSuf_append_both c hsuf)
      obtain ⟨L2, hO2, hM2, hP2, hS2, hN2⟩ := ih (processBuffer kws st c) (H ++ c) hN1 hSc
      have hshape : H ++ (c :: cs').flatten = (H ++ c) ++ cs'.flatten := by
        simp [List.append_assoc]
      refine ⟨L1 ++ L2, ?_, ?_, ?_, ?_, hN2⟩
      · rw [hO2, hO1, List.map_append, List.flatten_append, List.append_assoc]
      · rw [hM2, hM1, List.length_append, Nat.add_assoc]
      · intro l hl
        rcases List.mem_append.mp hl with hl | hl
        · obtain ⟨hne, hno, hmm, hsub⟩ := hP1 l hl
          refine ⟨hne, hno, hmm, ?_⟩
          rw [hshape]
          exact isSub_append_right _ (isSub_of_sub_suf hsub (isSuf_append_both c hsuf))
        · obtain ⟨hne, hno, hmm, hsub⟩ := hP2 l hl
          rw [hshape]
          exact ⟨hne, hno, hmm, hsub⟩
      · rw [hshape]
        exact hS2

theorem recs_emitted :
    ∀ (L : List (List Nat)), (∀ l ∈ L, noNl l) →
      recs ((L.map (fun l => l ++ [NL])).flatten) = L ++ [[]] := by
  intro L
  induction L with
  | nil => intro _; simp [recs]
  | cons l L' ih =>
      intro h
      have hshape : ((l :: L').map (fun l => l ++ [NL])).flatten =
          l ++ (NL :: (L'.map (fun l => l ++ [NL])).flatten) := by
        simp
      rw [hshape, recs_noNl_pre (h l (List.mem_cons_self _ _))
        (recs_cons_nl ((L'.map (fun l => l ++ [NL])).flatten)),
        ih (fun x hx => h x (List.mem_cons_of_mem _ hx))]
      simp

theorem isPref_nil_any (l : List Nat) : isPref [] l := ⟨l, rfl⟩

theorem isSub_cons_split {p : List Nat} {b : Nat} {l : List Nat} (h : isSub p (b :: l)) :
    isPref p (b :: l) ∨ isSub p l := by
  rcases h with ⟨s, t, hs⟩
  rcases s with _ | ⟨x, s'⟩
  · left
    exact ⟨t, by simpa using hs⟩
  · right
    rw [List.cons_append, List.cons_append] at hs
    injection hs with _ h2
    exact ⟨s', t, h2⟩

theorem isPref_cons_split {p : List Nat} {b : Nat} {l : List Nat} (h : isPref p (b :: l)) :
    p = [] ∨ ∃ p', p = b :: p' ∧ isPref p' l := by
  rcases h with ⟨t, hs⟩
  rcases p with _ | ⟨x, p'⟩
  · exact Or.inl rfl
  · right
    rw [List.cons_append] at hs
    injection hs with h1 h2
    exact ⟨p', by rw [h1], ⟨t, h2⟩⟩

theorem noNl_pref_headRec :
    ∀ (I p : List Nat), noNl p → isPref p I →
      ∀ r rs, recs I = r :: rs → isPref p r := by
  intro I
  induction I with
  | nil =>
      intro p _ hp r rs _
      rcases hp with ⟨t, ht⟩
      rcases List.append_eq_nil.mp ht.symm with ⟨hp0, _⟩
      rw [hp0]
      exact isPref_nil_any r
  | cons b I' ih =>
      intro p hp hpref r rs hrec
      rcases isPref_cons_split hpref with h0 | ⟨p', hp', hpref'⟩
      · rw [h0]
        exact isPref_nil_any r
      · have hb : b ≠ NL := by
          intro hbe
          exact hp b (by rw [hp']; exact List.mem_cons_self _ _) hbe
        rcases hI' : recs I' with _ | ⟨r0, rs0⟩
        · exact absurd hI' (recs_ne_nil I')
        · rw [recs_cons_ne hb hI'] at hrec
          injection hrec with h1 _
          have hpr0 : isPref p' r0 := ih p'
            (fun x hx => hp x (by rw [hp']; exact List.mem_cons_of_mem _ hx)) hpref' r0 rs0 hI'
          rcases hpr0 with ⟨t, ht⟩
          rw [hp', ← h1, ht]
          exact ⟨t, rfl⟩

theorem noNl_sub_rec :
    ∀ (I p : List Nat), noNl p → isSub p I → ∃ r ∈ recs I, isSub p r := by
  intro I
  induction I with
  | nil =>
      intro p _ hs
      rcases hs with ⟨s, t, hst⟩
      rcases List.append_eq_nil.mp hst.symm with ⟨h1, h2⟩
      rcases List.append_eq_nil.mp h1 with ⟨_, hp0⟩
      rw [hp0]
      exact ⟨[], by simp [recs], ⟨[], [], rfl⟩⟩
  | cons b I' ih =>
      intro p hp hsub
      rcases isSub_cons_split hsub with hpref | hsub'
      · by_cases hb : b = NL
        · subst hb
          rcases isPref_cons_split hpref with h0 | ⟨p', hp', _⟩
          · rw [h0]
            exact ⟨[], by rw [recs_cons_nl]; exact List.mem_cons_self _ _, ⟨[], [], rfl⟩⟩
          · exact absurd rfl (hp NL (by rw [hp']; exact List.mem_cons_self _ _))
        · rcases hI' : recs I' with _ | ⟨r0, rs0⟩
          · exact absurd hI' (recs_ne_nil I')
          · refine ⟨b :: r0, by rw [recs_cons_ne hb hI']; exact List.mem_cons_self _ _, ?_⟩
            have := noNl_pref_headRec (b :: I') p hp hpref (b :: r0) rs0 (recs_cons_ne hb hI')
            exact isSub_of_isPref this
      · obtain ⟨r, hr, hsubr⟩ := ih p hp hsub'
        by_cases hb : b = NL
        · subst hb
          exact ⟨r, by rw [recs_cons_nl]; exact List.mem_cons_of_mem _ hr, hsubr⟩
        · rcases hI' : recs I' with _ | ⟨r0, rs0⟩
          · exact absurd hI' (recs_ne_nil I')
          · rw [hI'] at hr
            rcases List.mem_cons.mp hr with rfl | hr
            · refine ⟨b :: r, by rw [recs_cons_ne hb hI']; exact List.mem_cons_self _ _, ?_⟩
              exact isSub_append_left [b] hsubr
            · exact ⟨r, by rw [recs_cons_ne hb hI']; exact List.mem_cons_of_mem _ hr, hsubr⟩

/-- C2 (amended): for every keyword set and every chunking of the input, every
line written to the output sink is a contiguous substring (not necessarily a
prefix) of length at most `MAX_LINE_LENGTH` of some newline-delimited record
of the input stream. -/
theorem c2_output_line_in_record (kws : List (List Nat)) (chunks : List (List Nat)) :
    ∀ l ∈ outLines ((processChunks kws initLM chunks).output),
      l.length ≤ MAX_LINE_LENGTH ∧ ∃ r ∈ recs chunks.flatten, isSub l r := by
  obtain ⟨L, hO, _hM, hP, _hS, _hN⟩ := chunks_char kws chunks initLM [] noNl_nil (isSuf_nil [])
  have hOut : (processChunks kws initLM chunks).output =
      ((L.map (fun l => l.take MAX_LINE_LENGTH)).map (fun l => l ++ [NL])).flatten := by
    rw [hO]
    simp [initLM, List.map_map]
    rfl
  have hno : ∀ l ∈ L.map (fun l => l.take MAX_LINE_LENGTH), noNl l := by
    intro l hl
    obtain ⟨l0, hl0, rfl⟩ := List.mem_map.mp hl
    exact noNl_take _ (hP l0 hl0).2.1
  intro l hl
  rw [outLines, hOut, recs_emitted _ hno, List.dropLast_concat] at hl
  obtain ⟨l0, hl0, rfl⟩ := List.mem_map.mp hl
  obtain ⟨_hne, hnol, _hmm, hsubI⟩ := hP l0 hl0
  refine ⟨?_, ?_⟩
  · rw [List.length_take]
    exact Nat.min_le_left _ _
  · have hsub' : isSub (l0.take MAX_LINE_LENGTH) chunks.flatten := by
      have h1 := isSub_take MAX_LINE_LENGTH hsubI
      simpa using h1
    exact noNl_sub_rec chunks.flatten _ (noNl_take _ hnol) hsub'

/-- C6: for every keyword set and every chunking of the input, the output is
exactly the concatenation, in input order, of one `(possibly truncated line)
++ newline` block per matched line, nothing else is ever written, and the
total output byte count is the sum of `min(raw length, MAX_LINE_LENGTH) + 1`
over the matched lines. -/
theorem c6_output_byte_count (kws : List (List Nat)) (chunks : List (List Nat)) :
    ∃ L : List (List Nat),
      (∀ l ∈ L, l ≠ [] ∧ KeywordMatcher.hasMatch kws (l.take MAX_LINE_LENGTH) = true) ∧
      (processChunks kws initLM chunks).output =
        (L.map (fun l => l.take MAX_LINE_LENGTH ++ [NL])).flatten ∧
      (processChunks kws initLM chunks).stats.linesMatched = L.length ∧
      (processChunks kws initLM chunks).output.length =
        (L.map (fun l => min l.length MAX_LINE_LENGTH + 1)).sum := by
  obtain ⟨L, hO, hM, hP, _hS, _hN⟩ := chunks_char kws chunks initLM [] noNl_nil (isSuf_nil [])
  have hOut : (processChunks kws initLM chunks).output =
      (L.map (fun l => l.take MAX_LINE_LENGTH ++ [NL])).flatten := by
    rw [hO]
    simp [initLM]
  refine ⟨L, fun l hl => ⟨(hP l hl).1, (hP l hl).2.2.1⟩, hOut, ?_, ?_⟩
  · rw [hM]
    simp [initLM]
  · rw [hOut, List.length_flatten, List.map_map]
    congr 1
    apply List.map_congr_left
    intro l _
    show (l.take MAX_LINE_LENGTH ++ [NL]).length = min l.length MAX_LINE_LENGTH + 1
    rw [List.length_append, List.length_take, Nat.min_comm]
    rfl

/-- C10: the carry buffer (`partialLine_`) stays strictly shorter than
`MAX_LINE_LENGTH` across every call to `processBuffer`: the no-terminator
branch appends to it only when carry + remaining stays strictly below the
cap, and clears it otherwise. -/
theorem c10_carry_bounded (kws : List (List Nat)) (st : LMState) (buf : List Nat)
    (h : st.carry.length < MAX_LINE_LENGTH) :
    (processBuffer kws st buf).carry.length < MAX_LINE_LENGTH := by
  rw [processBuffer_scan]
  exact scanBuf_carry_lt kws buf _ [] (by rw [bumpBytes_carry]; exact h)

theorem c10_carry_bounded_witness :
    initLM.carry.length < MAX_LINE_LENGTH ∧
    (processBuffer [] initLM [97]).carry.length < MAX_LINE_LENGTH :=
  ⟨by decide, c10_carry_bounded [] initLM [97] (by decide)⟩

/-- C5: with all keywords nonempty, `KeywordMatcher::matches` returns true
iff some keyword occurs as a contiguous byte subsequence of the text; an
empty keyword set rejects every text, and the empty text is rejected for
every such keyword set. -/
theorem c5_matches_iff (kws : List (List Nat)) (text : List Nat)
    (h : ∀ k ∈ kws, k ≠ []) :
    (KeywordMatcher.hasMatch kws text = true ↔ ∃ k ∈ kws, isSub k text) ∧
    KeywordMatcher.hasMatch [] text = false ∧
    KeywordMatcher.hasMatch kws [] = false := by
  refine ⟨hasMatch_iff kws text, rfl, ?_⟩
  cases hmm : KeywordMatcher.hasMatch kws []
  · rfl
  · exfalso
    obtain ⟨k, hk, hs⟩ := (hasMatch_iff kws []).mp hmm
    rcases hs with ⟨s, t, hst⟩
    rcases List.append_eq_nil.mp hst.symm with ⟨h1, _⟩
    rcases List.append_eq_nil.mp h1 with ⟨_, hk0⟩
    exact h k hk hk0

theorem c5_matches_iff_witness :
    (∀ k ∈ [[101]], k ≠ ([] : List Nat)) ∧
    ((KeywordMatcher.hasMatch [[101]] [100, 101] = true ↔
        ∃ k ∈ [[101]], isSub k [100, 101]) ∧
      KeywordMatcher.hasMatch [] [100, 101] = false ∧
      KeywordMatcher.hasMatch [[101]] [] = false) :=
  ⟨by decide, c5_matches_iff [[101]] [100, 101] (by decide)⟩

/-- C9: if the keyword list contains the empty string, `KeywordMatcher::matches`
returns true for every text, the empty text included: `find` on an empty
pattern succeeds at offset 0, so the filter is defeated. -/
theorem c9_empty_keyword (kws : List (List Nat)) (text : List Nat) (h : [] ∈ kws) :
    KeywordMatcher.hasMatch kws text = true :=
  (hasMatch_iff kws text).mpr ⟨[], h, ⟨[], text, rfl⟩⟩

theorem c9_empty_keyword_witness :
    (([] : List Nat) ∈ [([] : List Nat)]) ∧
    KeywordMatcher.hasMatch [[]] [] = true :=
  ⟨by decide, c9_empty_keyword [[]] [] (by decide)⟩

/-- C7: whenever a read ends in an I/O error other than end-of-file, the
error branch of the inner read loop closes the input handle, resets the
position cursor to zero and clears the carry, all in the same branch, and
breaks out to the re-open path. -/
theorem c7_error_branch (kws : List (List Nat)) (s : TailState) (bytes : List Nat) :
    (readIter kws s bytes ReadKind.rErr).1.isOpen = false ∧
    (readIter kws s bytes ReadKind.rErr).1.lastPosition = 0 ∧
    (readIter kws s bytes ReadKind.rErr).1.mon.carry = [] ∧
    (readIter kws s bytes ReadKind.rErr).2 = false := by
  by_cases hb : 0 < bytes.length <;> simp [readIter, hb]

/-- C8 exhibits the code bug: a short read that hits end-of-file (the common
case while tailing a growing file) sets `eofbit` and `failbit`, so the
`tellg()` call at log_monitor.cpp line 238 returns -1 and `lastPosition_`
becomes negative, contradicting the non-negative monotone position cursor. -/
theorem c8_lastPosition_negative :
    (readIter [] ⟨true, 0, false, false, 0, initLM⟩ [97, 98, 99] ReadKind.rEof).1.lastPosition
        = -1 ∧
    (readIter [] ⟨true, 0, false, false, 0, initLM⟩ [97, 98, 99] ReadKind.rEof).1.lastPosition
        < 0 := by
  constructor
  · rfl
  · decide

theorem noNl_replicate (n a : Nat) (ha : a ≠ NL) : noNl (List.replicate n a) := by
  intro b hb
  rw [List.mem_replicate] at hb
  rw [hb.2]
  exact ha

theorem hasMatch_single_replicate (a n : Nat) (h : 1 ≤ n) :
    KeywordMatcher.hasMatch [[a]] (List.replicate n a) = true := by
  rcases n with _ | n
  · omega
  · exact (hasMatch_iff _ _).mpr ⟨[a], List.mem_cons_self _ _,
      ⟨[], List.replicate n a, by simp [List.replicate_succ]⟩⟩

theorem hasMatch_none_replicate (a b : Nat) (n : Nat) (hab : a ≠ b) :
    KeywordMatcher.hasMatch [[b]] (List.replicate n a) = false := by
  cases hmm : KeywordMatcher.hasMatch [[b]] (List.replicate n a)
  · rfl
  · exfalso
    obtain ⟨k, hk, hs⟩ := (hasMatch_iff _ _).mp hmm
    simp only [List.mem_singleton] at hk
    subst hk
    rcases hs with ⟨s, t, hst⟩
    have hbmem : b ∈ List.replicate n a := by
      rw [hst]
      simp
    rw [List.mem_replicate] at hbmem
    exact hab hbmem.2.symm

theorem processLine_nil (kws : List (List Nat)) (st : LMState) :
    processLine kws st [] = st := by
  simp [processLine]

theorem bumpBytes_disc (st : LMState) (n : Nat) :
    (bumpBytes st n).stats.longLinesDiscarded = st.stats.longLinesDiscarded := rfl

theorem bumpDisc_disc (st : LMState) :
    (bumpDisc st).stats.longLinesDiscarded = st.stats.longLinesDiscarded + 1 := rfl

theorem clearCarry_disc (st : LMState) :
    (clearCarry st).stats.longLinesDiscarded = st.stats.longLinesDiscarded := rfl

theorem clearCarry_out (st : LMState) : (clearCarry st).output = st.output := rfl

theorem bumpDisc_out (st : LMState) : (bumpDisc st).output = st.output := rfl

theorem processLine_disc (kws : List (List Nat)) (st : LMState) (l : List Nat) :
    (processLine kws st l).stats.longLinesDiscarded =
      st.stats.longLinesDiscarded + (if MAX_LINE_LENGTH < l.length then 1 else 0) := by
  rw [processLine_spec]
  exact lineStats_disc kws st.stats l

theorem processBuffer_rep_flush (kws : List (List Nat)) (st : LMState) (hc : st.carry = [])
    (a : Nat) (ha : a ≠ NL) :
    processBuffer kws st (List.replicate MAX_LINE_LENGTH a) =
      bumpBytes (bumpDisc (clearCarry
        (processLine kws st (List.replicate MAX_LINE_LENGTH a)))) MAX_LINE_LENGTH := by
  rw [processBuffer_bump_eq, recs_of_noNl (noNl_replicate _ _ ha), runRecs_single,
    List.length_replicate]
  refine congrArg (fun z => bumpBytes z MAX_LINE_LENGTH) ?_
  have hne : List.replicate MAX_LINE_LENGTH a ≠ [] := by
    intro h0
    have hlen := congrArg List.length h0
    rw [List.length_replicate] at hlen
    exact absurd hlen (by decide)
  have hth : MAX_LINE_LENGTH ≤ st.carry.length + (List.replicate MAX_LINE_LENGTH a).length := by
    rw [hc, List.length_replicate]
    simp
  rw [finishTail, if_neg hne, if_pos hth]
  rw [hc]
  simp [List.take_replicate]

theorem processBuffer_line_nl (kws : List (List Nat)) (st : LMState) (hc : st.carry = [])
    (r : List Nat) (hr : noNl r) :
    processBuffer kws st (r ++ [NL]) =
      bumpBytes (clearCarry (processLine kws st r)) (r.length + 1) := by
  rw [processBuffer_bump_eq]
  have hnl : recs [NL] = [] :: [[]] := by
    rw [recs_cons_nl]
    rfl
  have hrecs : recs (r ++ [NL]) = [r, []] := by
    rw [recs_noNl_pre hr hnl]
    simp
  rw [hrecs, runRecs_cons2, runRecs_single, finishTail_nil]
  have hlen : (r ++ [NL]).length = r.length + 1 := by simp
  rw [hlen]
  refine congrArg (fun z => bumpBytes z (r.length + 1)) ?_
  rw [newlineStep, hc, List.nil_append]

theorem recs_nl_single : recs [NL] = [[], []] := by
  rw [recs_cons_nl]
  rfl

theorem processBuffer_nl_only (kws : List (List Nat)) (st : LMState) (hc : st.carry = []) :
    processBuffer kws st [NL] = bumpBytes (clearCarry st) 1 := by
  have h := processBuffer_line_nl kws st hc [] noNl_nil
  rw [List.nil_append, processLine_nil] at h
  simpa using h

/-- C1 (amended): feeding the input to `processBuffer` in arbitrary chunks
produces exactly the same state (output, statistics and carry) as feeding the
whole byte sequence in one call, provided every newline-delimited record of
the input, including the trailing unterminated segment, is strictly shorter
than `MAX_LINE_LENGTH`.  (Without that proviso the equality fails; see the
counterexample.) -/
theorem c1_chunk_invariance (kws : List (List Nat)) (chunks : List (List Nat))
    (h : ∀ r ∈ recs chunks.flatten, r.length < MAX_LINE_LENGTH) :
    processChunks kws initLM chunks = processBuffer kws initLM chunks.flatten := by
  apply foldl_processBuffer kws chunks initLM noNl_nil
  intro r hr
  apply h
  simpa [initLM] using hr

theorem c1_chunk_invariance_witness :
    (∀ r ∈ recs ([[107, 49, 10], [97, 98]] : List (List Nat)).flatten,
        r.length < MAX_LINE_LENGTH) ∧
    processChunks [[107]] initLM [[107, 49, 10], [97, 98]] =
      processBuffer [[107]] initLM ([[107, 49, 10], [97, 98]] : List (List Nat)).flatten :=
  ⟨by decide, c1_chunk_invariance [[107]] [[107, 49, 10], [97, 98]] (by decide)⟩

theorem chunked_rep_nl_disc :
    (processChunks [[97]] initLM
        [List.replicate MAX_LINE_LENGTH 97, [NL]]).stats.longLinesDiscarded = 1 := by
  rw [processChunks_cons, processChunks_cons, processChunks_nil,
    processBuffer_rep_flush [[97]] initLM rfl 97 (by decide),
    processBuffer_nl_only [[97]] _ rfl]
  simp only [bumpBytes_disc, clearCarry_disc, bumpDisc_disc, processLine_disc,
    List.length_replicate]
  rw [if_neg (lt_irrefl MAX_LINE_LENGTH)]
  rfl

/-- C1 counterexample: for the input consisting of one 5000-byte record
followed by a newline, splitting the bytes at the 5000-byte boundary changes
the statistics (`long_lines_discarded` becomes 1 instead of 0), so the
claimed unconditional chunk invariance is false. -/
theorem c1_chunk_invariance_cex :
    (processChunks [[97]] initLM
        [List.replicate MAX_LINE_LENGTH 97, [NL]]).stats.longLinesDiscarded = 1 ∧
    (processBuffer [[97]] initLM ([List.replicate MAX_LINE_LENGTH 97, [NL]] :
        List (List Nat)).flatten).stats.longLinesDiscarded = 0 ∧
    processChunks [[97]] initLM [List.replicate MAX_LINE_LENGTH 97, [NL]] ≠
      processBuffer [[97]] initLM
        ([List.replicate MAX_LINE_LENGTH 97, [NL]] : List (List Nat)).flatten := by
  have h1 := chunked_rep_nl_disc
  have h2 : (processBuffer [[97]] initLM ([List.replicate MAX_LINE_LENGTH 97, [NL]] :
      List (List Nat)).flatten).stats.longLinesDiscarded = 0 := by
    have hfl : ([List.replicate MAX_LINE_LENGTH 97, [NL]] : List (List Nat)).flatten =
        List.replicate MAX_LINE_LENGTH 97 ++ [NL] := rfl
    rw [hfl, processBuffer_line_nl [[97]] initLM rfl _ (noNl_replicate _ _ (by decide))]
    simp only [bumpBytes_disc, clearCarry_disc, processLine_disc, List.length_replicate]
    rw [if_neg (lt_irrefl MAX_LINE_LENGTH)]
    rfl
  refine ⟨h1, h2, ?_⟩
  intro heq
  rw [heq, h2] at h1
  exact absurd h1 (by decide)

/-- C3 (amended): when the whole input is handed to `processBuffer` in a
single call from the initial state and the input ends with a newline, the
`long_lines_discarded` counter equals the number of records longer than
`MAX_LINE_LENGTH` (each oversized record counts exactly once), and the output
is the concatenation of each record truncated to its first `MAX_LINE_LENGTH`
bytes (followed by one newline) whenever the truncation matches.  Under
multi-chunk processing an oversized record can be counted more than once; see
the counterexample. -/
theorem c3_single_chunk_truncation (kws : List (List Nat)) (input : List Nat)
    (h : (recs input).getLastD [] = []) :
    (processBuffer kws initLM input).stats.longLinesDiscarded =
        (recs input).dropLast.countP (fun r => decide (MAX_LINE_LENGTH < r.length)) ∧
    (processBuffer kws initLM input).output =
        ((recs input).dropLast.map (emitOne kws)).flatten := by
  obtain ⟨hd, ho⟩ := runRecs_disc_out kws (recs input) initLM rfl (recs_ne_nil input) h
  constructor
  · rw [processBuffer_bump_eq, bumpBytes_disc, hd]
    simp [initLM]
  · rw [processBuffer_bump_eq, bumpBytes_out, ho]
    simp [initLM]

theorem c3_single_chunk_truncation_witness :
    (recs (List.replicate 5001 97 ++ [NL])).getLastD [] = [] ∧
    (processBuffer [[97]] initLM
        (List.replicate 5001 97 ++ [NL])).stats.longLinesDiscarded = 1 := by
  have hrecs : recs (List.replicate 5001 97 ++ [NL]) = [List.replicate 5001 97, []] := by
    rw [recs_noNl_pre (noNl_replicate 5001 97 (by decide)) recs_nl_single,
      List.append_nil]
  have hlast : (recs (List.replicate 5001 97 ++ [NL])).getLastD [] = [] := by
    rw [hrecs]
    rfl
  refine ⟨hlast, ?_⟩
  rw [(c3_single_chunk_truncation [[97]] (List.replicate 5001 97 ++ [NL]) hlast).1, hrecs,
    show ([List.replicate 5001 97, []] : List (List Nat)).dropLast =
      [List.replicate 5001 97] from rfl]
  simp only [List.countP_cons, List.countP_nil, List.length_replicate]
  decide

/-- C3 counterexample: the input is a single record of 10000 bytes followed
by a newline, yet feeding it in 5000-byte chunks increments
`long_lines_discarded` twice, not once. -/
theorem c3_multi_chunk_cex :
    ([List.replicate MAX_LINE_LENGTH 97, List.replicate MAX_LINE_LENGTH 97, [NL]] :
        List (List Nat)).flatten = List.replicate 10000 97 ++ [NL] ∧
    (recs (List.replicate 10000 97 ++ [NL])).dropLast = [List.replicate 10000 97] ∧
    MAX_LINE_LENGTH < (List.replicate 10000 97).length ∧
    (processChunks [[97]] initLM
        [List.replicate MAX_LINE_LENGTH 97, List.replicate MAX_LINE_LENGTH 97,
          [NL]]).stats.longLinesDiscarded = 2 := by
  refine ⟨?_, ?_, ?_, ?_⟩
  · rw [show (10000 : Nat) = MAX_LINE_LENGTH + MAX_LINE_LENGTH from by
      norm_num [MAX_LINE_LENGTH], List.replicate_add]
    show List.replicate MAX_LINE_LENGTH 97 ++ (List.replicate MAX_LINE_LENGTH 97 ++
      ([NL] ++ [])) = _
    rw [List.append_nil, List.append_assoc]
  · rw [recs_noNl_pre (noNl_replicate 10000 97 (by decide)) recs_nl_single,
      List.append_nil]
    rfl
  · rw [List.length_replicate]
    decide
  · rw [processChunks_cons, processChunks_cons, processChunks_cons, processChunks_nil,
      processBuffer_rep_flush [[97]] initLM rfl 97 (by decide),
      processBuffer_rep_flush [[97]] _ rfl 97 (by decide),
      processBuffer_nl_only [[97]] _ rfl]
    simp only [bumpBytes_disc, clearCarry_disc, bumpDisc_disc, processLine_disc,
      List.length_replicate]
    rw [if_neg (lt_irrefl MAX_LINE_LENGTH)]
    rfl

/-- C4 (amended): when a record of exactly `MAX_LINE_LENGTH` bytes and its
terminating newline are supplied to `processBuffer` in the same call from the
initial state, the record is emitted verbatim (when it matches a keyword) and
`long_lines_discarded` is not incremented.  If a chunk boundary falls exactly
after the 5000th byte, the counter is incremented; see the counterexample. -/
theorem c4_exact_line_single_chunk (kws : List (List Nat)) (r : List Nat)
    (h1 : noNl r) (h2 : r.length = MAX_LINE_LENGTH) :
    (processBuffer kws initLM (r ++ [NL])).stats.longLinesDiscarded = 0 ∧
    (KeywordMatcher.hasMatch kws r = true →
      (processBuffer kws initLM (r ++ [NL])).output = r ++ [NL]) := by
  have hrecs : recs (r ++ [NL]) = [r, []] := by
    rw [recs_noNl_pre h1 recs_nl_single]
    simp
  have hlast : (recs (r ++ [NL])).getLastD [] = [] := by
    rw [hrecs]
    rfl
  obtain ⟨hd, ho⟩ := runRecs_disc_out kws (recs (r ++ [NL])) initLM rfl (recs_ne_nil _) hlast
  constructor
  · rw [processBuffer_bump_eq, bumpBytes_disc, hd, hrecs]
    simp [initLM, List.countP_cons, h2]
  · intro hm
    have hr_ne : r ≠ [] := by
      intro h0
      rw [h0] at h2
      exact absurd h2.symm (by decide)
    have htake : r.take MAX_LINE_LENGTH = r := take_all_of_len_le (Nat.le_of_eq h2)
    rw [processBuffer_bump_eq, bumpBytes_out, ho, hrecs]
    simp [initLM, emitOne, hr_ne, htake, hm]

theorem c4_exact_line_single_chunk_witness :
    noNl (List.replicate MAX_LINE_LENGTH 97) ∧
    (List.replicate MAX_LINE_LENGTH 97).length = MAX_LINE_LENGTH ∧
    (processBuffer [[97]] initLM
        (List.replicate MAX_LINE_LENGTH 97 ++ [NL])).stats.longLinesDiscarded = 0 ∧
    (processBuffer [[97]] initLM (List.replicate MAX_LINE_LENGTH 97 ++ [NL])).output =
      List.replicate MAX_LINE_LENGTH 97 ++ [NL] := by
  have h1 := noNl_replicate MAX_LINE_LENGTH 97 (by decide)
  have h2 : (List.replicate MAX_LINE_LENGTH 97).length = MAX_LINE_LENGTH :=
    List.length_replicate _ _
  have h := c4_exact_line_single_chunk [[97]] _ h1 h2
  exact ⟨h1, h2, h.1, h.2 (hasMatch_single_replicate 97 MAX_LINE_LENGTH (by decide))⟩

/-- C4 counterexample: the same 5000-byte record followed by a newline, but
with the chunk boundary right after the record's last byte: the line is still
emitted, yet `long_lines_discarded` is incremented, contradicting the claim
that it is never incremented for any chunking. -/
theorem c4_chunked_cex :
    ([List.replicate MAX_LINE_LENGTH 97, [NL]] : List (List Nat)).flatten =
        List.replicate MAX_LINE_LENGTH 97 ++ [NL] ∧
    (List.replicate MAX_LINE_LENGTH 97).length = MAX_LINE_LENGTH ∧
    (processChunks [[97]] initLM
        [List.replicate MAX_LINE_LENGTH 97, [NL]]).stats.longLinesDiscarded = 1 := by
  exact ⟨by simp, List.length_replicate _ _, chunked_rep_nl_disc⟩

theorem c2_output_line_in_record_witness :
    ([97] ∈ outLines ((processChunks [[97]] initLM [[97, NL]]).output)) ∧
    (([97] : List Nat).length ≤ MAX_LINE_LENGTH ∧
      ∃ r ∈ recs ([[97, NL]] : List (List Nat)).flatten, isSub [97] r) :=
  ⟨by decide, c2_output_line_in_record [[97]] [[97, NL]] [97] (by decide)⟩

/-- C2 counterexample: the record `97^5000 ++ 98^10` is split so that the
first 5000 bytes arrive in one chunk (forcing a flush that matches nothing)
and the rest in the next chunk; the output then contains the line `98^10`,
which is an interior substring but not a prefix of any record of the input,
refuting the claim as stated. -/
theorem c2_pref_cex :
    ¬ (∀ l ∈ outLines ((processChunks [[98]] initLM
          [List.replicate MAX_LINE_LENGTH 97, List.replicate 10 98 ++ [NL]]).output),
        l.length ≤ MAX_LINE_LENGTH ∧
        ∃ r ∈ recs ([List.replicate MAX_LINE_LENGTH 97, List.replicate 10 98 ++ [NL]] :
            List (List Nat)).flatten, isPref l r) := by
  intro hall
  have hne97 : List.replicate MAX_LINE_LENGTH 97 ≠ ([] : List Nat) := by
    intro h0
    have hlen := congrArg List.length h0
    rw [List.length_replicate] at hlen
    exact absurd hlen (by decide)
  have h97 : emitOne [[98]] (List.replicate MAX_LINE_LENGTH 97) = [] := by
    rw [emitOne, if_neg hne97,
      take_all_of_len_le (Nat.le_of_eq (List.length_replicate _ _)),
      hasMatch_none_replicate 97 98 MAX_LINE_LENGTH (by decide)]
    simp
  have h98 : emitOne [[98]] (List.replicate 10 98) = List.replicate 10 98 ++ [NL] := by
    rw [emitOne, if_neg (by decide),
      take_all_of_len_le (by rw [List.length_replicate]; decide),
      hasMatch_single_replicate 98 10 (by decide), if_pos rfl]
  have hout : (processChunks [[98]] initLM
      [List.replicate MAX_LINE_LENGTH 97, List.replicate 10 98 ++ [NL]]).output =
      List.replicate 10 98 ++ [NL] := by
    rw [processChunks_cons, processChunks_cons, processChunks_nil,
      processBuffer_rep_flush [[98]] initLM rfl 97 (by decide),
      processBuffer_line_nl [[98]] _ rfl _ (noNl_replicate 10 98 (by decide)),
      bumpBytes_out, clearCarry_out, (processLine_char [[98]] _ (List.replicate 10 98)).1,
      bumpBytes_out, bumpDisc_out, clearCarry_out,
      (processLine_char [[98]] initLM (List.replicate MAX_LINE_LENGTH 97)).1, h97, h98]
    rfl
  have hol : outLines ((processChunks [[98]] initLM
      [List.replicate MAX_LINE_LENGTH 97, List.replicate 10 98 ++ [NL]]).output) =
      [List.replicate 10 98] := by
    rw [hout, outLines, recs_noNl_pre (noNl_replicate 10 98 (by decide)) recs_nl_single,
      List.append_nil]
    rfl
  have hrecsI : recs (([List.replicate MAX_LINE_LENGTH 97, List.replicate 10 98 ++ [NL]] :
      List (List Nat)).flatten) =
      [List.replicate MAX_LINE_LENGTH 97 ++ List.replicate 10 98, []] := by
    have hfl : ([List.replicate MAX_LINE_LENGTH 97, List.replicate 10 98 ++ [NL]] :
        List (List Nat)).flatten =
        (List.replicate MAX_LINE_LENGTH 97 ++ List.replicate 10 98) ++ [NL] := by
      show List.replicate MAX_LINE_LENGTH 97 ++ ((List.replicate 10 98 ++ [NL]) ++ []) = _
      rw [List.append_nil, List.append_assoc]
    rw [hfl, recs_noNl_pre (noNl_append (noNl_replicate _ _ (by decide))
      (noNl_replicate _ _ (by decide))) recs_nl_single, List.append_nil]
  obtain ⟨-, r, hr, hpref⟩ := hall (List.replicate 10 98)
    (by rw [hol]; exact List.mem_singleton.mpr rfl)
  rw [hrecsI] at hr
  rcases List.mem_cons.mp hr with hre | hr2
  · subst hre
    rcases hpref with ⟨t, ht⟩
    have e1 := congrArg (List.take 1) ht
    rw [List.take_append_of_le_length (by rw [List.length_replicate]; decide),
      List.take_append_of_le_length (by rw [List.length_replicate]; decide),
      List.take_replicate, List.take_replicate] at e1
    have h1 : min 1 MAX_LINE_LENGTH = 1 := by decide
    have h2 : min 1 10 = 1 := by decide
    rw [h1, h2, List.replicate_one, List.replicate_one] at e1
    exact absurd e1 (by decide)
  · have hr0 : r = [] := List.mem_singleton.mp hr2
    subst hr0
    have := isPref_length hpref
    rw [List.length_replicate] at this
    exact absurd this (by decide)
